import Mathlib

set_option maxRecDepth 16384

/-!
Verification development for the `remark-typst` / `rehype-typst` plugin pair.

The remark plugin (`src/remark-typst.js`) scans markdown text for
`$...$` / `$$...$$` math runs via the regex `/\$\$?([\s\S]+?)\$\$?/g`,
classifies each run as inline or display, trims and brace-escapes the inner
content, and splices math segment nodes into the sibling sequence.

The rehype plugin (`src/rehype-typst.js`) walks the HTML tree, collects
math nodes, builds a Typst source template per node, invokes the external
compiler (modelled as an oracle), and substitutes the rendered SVG (or an
error marker) back into the node.

Strings are modelled as `List Char`; the two external effectful services
(the Typst compiler and the HTML fragment parser) are oracle parameters.
Recursions that the source expresses as regex-driven `while` loops are
modelled with an explicit fuel argument (always instantiated with a
provably sufficient bound), keeping every definition executable.
-/

/-- The character class `\s` of JavaScript regular expressions (also the set
stripped by `String.prototype.trim`): space, tab, line terminators, vertical
tab, form feed, NBSP, and the Unicode space separators. -/
def jsWs (c : Char) : Bool :=
  c = ' ' || c = '\t' || c = '\n' || c = '\r' ||
  c.toNat = 11 || c.toNat = 12 || c.toNat = 0xa0 || c.toNat = 0x1680 ||
  (0x2000 ≤ c.toNat && c.toNat ≤ 0x200a) ||
  c.toNat = 0x2028 || c.toNat = 0x2029 || c.toNat = 0x202f ||
  c.toNat = 0x205f || c.toNat = 0x3000 || c.toNat = 0xfeff

/-- JavaScript line terminators: the characters NOT matched by `.` in a
regex without the `s` flag. -/
def isLineTerm (c : Char) : Bool :=
  c = '\n' || c = '\r' || c.toNat = 0x2028 || c.toNat = 0x2029

/-- `String.prototype.trim`: strip leading and trailing `\s` characters. -/
def trimList (s : List Char) : List Char :=
  ((s.dropWhile jsWs).reverse.dropWhile jsWs).reverse

/-- Left curly brace (written via its code point to keep string literals
free of brace characters). -/
def braceL : Char := Char.ofNat 123

/-- Right curly brace. -/
def braceR : Char := Char.ofNat 125

/-- `content.replace(/\{/g, '&#123;').replace(/\}/g, '&#125;')`: the two
sequential global replaces are equivalent to one character-wise expansion
because neither replacement string contains a brace. -/
def escapeBraces (s : List Char) : List Char :=
  s.flatMap (fun c =>
    if c = braceL then ("&#123;").data
    else if c = braceR then ("&#125;").data
    else [c])

/-- `s.slice(a, b)` on a string, as a half-open index range on the char list. -/
def sliceChars (s : List Char) (a b : Nat) : List Char :=
  (s.drop a).take (b - a)

/-- The language of the JavaScript regex `/^\s+[\s\S]*\s+$/` (used by
`remark-typst` as `hasSpaces`): some split `0 < i ≤ j < len` with an all-`\s`
prefix of length `i`, an arbitrary middle, and a nonempty all-`\s` suffix
starting at `j`. -/
def matchesWsAnyWs (s : List Char) : Bool :=
  (List.range (s.length + 1)).any (fun i =>
    (List.range s.length).any (fun j =>
      decide (1 ≤ i) && decide (i ≤ j) && (s.take i).all jsWs && (s.drop j).all jsWs))

/-- The language of the JavaScript regex `/^\s+.*\s+$/` (used by
`rehype-typst` as `hasTypstDisplaySpaces`): like `matchesWsAnyWs` but the
middle is matched by `.` and hence may not contain a line terminator. -/
def matchesWsDotWs (s : List Char) : Bool :=
  (List.range (s.length + 1)).any (fun i =>
    (List.range s.length).any (fun j =>
      decide (1 ≤ i) && decide (i ≤ j) && (s.take i).all jsWs &&
      (sliceChars s i j).all (fun c => !(isLineTerm c)) && (s.drop j).all jsWs))

/-- Index of the first occurrence of `c` in a char list. -/
def firstIdx (c : Char) : List Char → Option Nat
  | [] => none
  | x :: xs => if x = c then some 0 else (firstIdx c xs).map (· + 1)

/-- First index `q ≥ i` with `s[q] = '$'` (the closing-delimiter search of
the lazy regex scan). -/
def findFrom (s : List Char) (i : Nat) : Option Nat :=
  (firstIdx '$' (s.drop i)).map (· + i)

/-- One match of `/\$\$?([\s\S]+?)\$\$?/`: half-open range `[start, stop)`
in the flattened text plus the captured group (`match[1]`). -/
structure RMatch where
  start : Nat
  stop : Nat
  content : List Char
deriving DecidableEq

/-- End position of a match whose capture group ends just before the `'$'`
at index `q`: the mandatory closing `\$` plus the greedy optional `\$?`. -/
def closeEnd (s : List Char) (q : Nat) : Nat :=
  if s[q+1]? = some '$' then q + 2 else q + 1

/-- Attempt of `/\$\$?([\s\S]+?)\$\$?/` anchored at index `p`, following the
backtracking order of the JavaScript engine: the greedy `\$?` first consumes
a second `'$'` when present; the lazy capture then ends at the first
subsequent `'$'`; if no closing `'$'` exists for the two-dollar opening the
engine backtracks `\$?` to empty and retries with the capture starting at
`p+1`. -/
def matchAt (s : List Char) (p : Nat) : Option RMatch :=
  if s[p]? = some '$' then
    if s[p+1]? = some '$' then
      match findFrom s (p+3) with
      | some q => some ⟨p, closeEnd s q, sliceChars s (p+2) q⟩
      | none =>
        match findFrom s (p+2) with
        | some q => some ⟨p, closeEnd s q, sliceChars s (p+1) q⟩
        | none => none
    else
      match findFrom s (p+2) with
      | some q => some ⟨p, closeEnd s q, sliceChars s (p+1) q⟩
      | none => none
  else none

/-- `regex.exec` from position `i`: try each candidate start position (only
`'$'` positions can match) left to right.  Fueled; `s.length + 1` fuel is
always sufficient since each step advances the position. -/
def execFromF (s : List Char) : Nat → Nat → Option RMatch
  | 0, _ => none
  | fuel+1, i =>
    match findFrom s i with
    | none => none
    | some p =>
      match matchAt s p with
      | some m => some m
      | none => execFromF s fuel (p+1)

/-- `regex.exec(s)` with `lastIndex = i`. -/
def execFrom (s : List Char) (i : Nat) : Option RMatch :=
  execFromF s (s.length + 1) i

/-- mdast sibling node as seen by the remark plugin: a text node carries its
value; `other` is an opaque non-text sibling (strong, emphasis, ...);
`mathCode` is the `inlineCode` segment node the plugin creates, carrying the
stored (trimmed, brace-escaped) value, the display flag, and -- as ghost data
needed only to state the round-trip property -- the raw delimited text
`match[0]` it came from. -/
inductive MNode where
  | text (value : List Char)
  | other (tag : Nat)
  | mathCode (value : List Char) (display : Bool) (raw : List Char)
deriving DecidableEq

/-- Contribution of one sibling to the flattened paragraph view: text nodes
contribute their value, any non-text node one `'\0'` placeholder. -/
def flatten1 : MNode → List Char
  | .text v => v
  | _ => ['\x00']

/-- The flattened view `fullText` of a sibling sequence. -/
def flattenChildren (cs : List MNode) : List Char :=
  (cs.map flatten1).flatten

/-- One `childMap` entry: half-open range of the child in the flattened view. -/
structure Entry where
  start : Nat
  stop : Nat
  child : MNode
deriving DecidableEq

/-- The `childMap` built by the paragraph pass, starting at offset `pos`. -/
def buildMap : List MNode → Nat → List Entry
  | [], _ => []
  | c :: cs, pos =>
    ⟨pos, pos + (flatten1 c).length, c⟩ :: buildMap cs (pos + (flatten1 c).length)

/-- The gap-emission loop run before each match: children strictly between
`lastIndex = a` and `matchStart = b` are copied (text nodes sliced to the
window, placeholder nodes copied when inside the window); iteration stops at
the first entry starting at or after `b`. -/
def emitGap (F : List Char) (a b : Nat) : List Entry → List MNode
  | [] => []
  | e :: rest =>
    if e.stop ≤ a then emitGap F a b rest
    else if b ≤ e.start then []
    else
      match e.child with
      | .text v =>
        let portion := sliceChars v (a - e.start) (min v.length (b - e.start))
        (if portion.isEmpty then [] else [MNode.text portion]) ++ emitGap F a b rest
      | c =>
        (if !(F[e.start]? = some '\x00') then [c]
         else if a ≤ e.start ∧ e.stop ≤ b then [c] else []) ++ emitGap F a b rest

/-- The tail loop run after the last match: like `emitGap` with no right
boundary. -/
def emitTail (a : Nat) : List Entry → List MNode
  | [] => []
  | e :: rest =>
    if e.stop ≤ a then emitTail a rest
    else
      match e.child with
      | .text v =>
        let portion := v.drop (a - e.start)
        (if portion.isEmpty then [] else [MNode.text portion]) ++ emitTail a rest
      | c => (if a ≤ e.start then [c] else []) ++ emitTail a rest

/-- Creation of the `inlineCode` math segment node for one match: display iff
the full match starts with `$$` or the capture matches `/^\s+[\s\S]*\s+$/`;
the stored value is the capture trimmed then brace-escaped. -/
def mkMathNode (s : List Char) (m : RMatch) : MNode :=
  let fullMatch := sliceChars s m.start m.stop
  let isDoubleDollar := fullMatch.take 2 = ['$', '$']
  let hasSpaces := matchesWsAnyWs m.content
  let isDisplay := isDoubleDollar || hasSpaces
  MNode.mathCode (escapeBraces (trimList m.content)) isDisplay fullMatch

/-- The `while ((match = regex.exec(fullText)))` loop of the paragraph pass,
followed by the tail loop.  Fueled; each match advances `lastIndex` by at
least 3, so `F.length + 1` fuel is always sufficient. -/
def spliceLoopF (F : List Char) (entries : List Entry) : Nat → Nat → List MNode
  | 0, _ => []
  | fuel+1, lastIndex =>
    match execFrom F lastIndex with
    | none => emitTail lastIndex entries
    | some m =>
      emitGap F lastIndex m.start entries ++ mkMathNode F m :: spliceLoopF F entries fuel m.stop

/-- The match-driven splice of a paragraph's children. -/
def spliceLoop (F : List Char) (entries : List Entry) (lastIndex : Nat) : List MNode :=
  spliceLoopF F entries (F.length + 1) lastIndex

/-- The paragraph visitor of `remarkTypstMath`: build the flattened view and
`childMap`, return early when no `'$'` occurs, otherwise splice and replace
the children when the result is nonempty. -/
def processParagraph (children : List MNode) : List MNode :=
  let F := flattenChildren children
  if ('$' ∈ F) then
    let entries := buildMap children 0
    let newChildren := spliceLoop F entries 0
    if newChildren.isEmpty then children else newChildren
  else children

/-- Loop of `processTextNode` (the single-text-string variant used inside
strong/emphasis): emit the text before each match, the math node, and the
remaining text after the last match. -/
def ptnLoopF (s : List Char) : Nat → Nat → List MNode
  | 0, _ => []
  | fuel+1, lastIndex =>
    match execFrom s lastIndex with
    | none => if lastIndex < s.length then [MNode.text (s.drop lastIndex)] else []
    | some m =>
      (if lastIndex < m.start then [MNode.text (sliceChars s lastIndex m.start)] else []) ++
        mkMathNode s m :: ptnLoopF s fuel m.stop

/-- `processTextNode` of `remark-typst`. -/
def processTextNode (s : List Char) : List MNode :=
  if ('$' ∈ s) then ptnLoopF s (s.length + 1) 0 else [MNode.text s]

/-- hast node as seen by the rehype plugin.  Of the `properties` record the
model keeps the two fields the plugin reads or writes with observable effect
on the claims: `className` and `style`.  (The numeric `height`/`width`
em-conversion uses floating point `parseFloat` arithmetic and is not
modelled.) -/
inductive Hast where
  | element (tagName : String) (className : List String) (style : String) (children : List Hast)
  | htext (value : List Char)

/-- The collection predicate of `rehypeTypstCustom`'s tree walk:
`math-inline` or `math-display` in the class list (remark-math's classes),
or a `code` element tagged `language-typst`. -/
def isMathTarget (tagName : String) (classes : List String) : Bool :=
  classes.contains ("math-inline") || classes.contains ("math-display") ||
  (tagName = "code" && classes.contains ("language-typst"))

/-- `#set page(height: auto, width: auto, margin: 0pt)` -/
def setPageLine : List Char :=
  ("#set page(height: auto, width: auto, margin: 0pt)").data

/-- The show-rule line that boxes equations with vertical inset padding
(braces written as `\x7b`/`\x7d`). -/
def showBoxLine : List Char :=
  ("#show math.equation: it => \x7b box(it, inset: (top: 0.5em, bottom: 0.5em)) \x7d").data

/-- `trimmedCode.startsWith('$') && trimmedCode.endsWith('$')`. -/
def hasTypstDelimiters (trimmed : List Char) : Bool :=
  (trimmed.take 1 = ['$']) && (trimmed.reverse.take 1 = ['$'])

/-- The Typst source template built by `renderTypstToSVG`: pass-through when
the trimmed code already carries `$` delimiters; otherwise wrap in `$ .. $`,
adding the inset-box show rule on the NON-display branch. -/
def renderTemplate (code : List Char) (displayMode : Bool) : List Char :=
  let trimmedCode := trimList code
  if hasTypstDelimiters trimmedCode then
    setPageLine ++ '\n' :: trimmedCode
  else if displayMode then
    setPageLine ++ '\n' :: (("$ ").data ++ trimmedCode ++ (" $").data)
  else
    setPageLine ++ '\n' :: showBoxLine ++ '\n' :: (("$ ").data ++ trimmedCode ++ (" $").data)

/-- `renderTypstToSVG`, with the external compiler as an oracle from the
template text to either an SVG string or a diagnostics payload.  A `none`
compile result becomes a thrown `Error` whose message carries the
diagnostics. -/
def renderTypstToSVG (compile : List Char → Except (List Char) (List Char))
    (code : List Char) (displayMode : Bool) : Except (List Char) (List Char) :=
  match compile (renderTemplate code displayMode) with
  | .error diags => .error (("Typst compilation failed: ").data ++ diags)
  | .ok svg => .ok svg

/-- Style string written onto the svg node in display mode. -/
def displayStyleStr : String := "display: block; margin: 1em auto;"

/-- Style string written onto the svg node in inline mode. -/
def inlineStyleStr : String := "display: inline-block; vertical-align: middle;"

/-- The svg node with its mode-dependent inline style written (the numeric
em height/width normalization is outside the model). -/
def styledSvg (n : Hast) (displayMode : Bool) : Hast :=
  match n with
  | .element t c _ ch =>
    .element t c (if displayMode then displayStyleStr else inlineStyleStr) ch
  | .htext v => .htext v

/-- Modelled message of the JavaScript `TypeError` thrown when the parsed
fragment's first child is a text node (reading `.properties` of
`undefined`); the exact runtime wording is immaterial to the claims. -/
def typeErrMsg : List Char := ("TypeError: cannot read properties of undefined").data

/-- The error-marker children installed by the `catch` branch:
`[{type:'text', value:`[Typst Error: ${message}]`}]`. -/
def errorChildren (msg : List Char) : List Hast :=
  [Hast.htext (("[Typst Error: ").data ++ msg ++ ("]").data)]

/-- `node.children[0]?.value || ''`: the value of the first child when it is
a text node, otherwise the empty string. -/
def nodeCode (ch : List Hast) : List Char :=
  match ch.head? with
  | some (.htext v) => v
  | _ => []

/-- `isDisplayMode = isMathDisplay || parent?.tagName === 'pre' ||
hasTypstDisplaySpaces` where `hasTypstDisplaySpaces` tests the raw code
against `/^\s+.*\s+$/`. -/
def nodeDisplayMode (classes : List String) (parentTag : String) (code : List Char) : Bool :=
  classes.contains ("math-display") || parentTag = "pre" || matchesWsDotWs code

/-- One `processNode` job on a collected math element (the node is treated
as atomic: the model does not re-descend into a substituted node's original
children, so trees with math nodes nested inside math nodes are outside the
modelled scope).  `parse` is the `fromHtmlIsomorphic` oracle returning the
fragment's child list.  The `parentTag = "pre"` display success case is a
no-op here because the replacement happens at the parent (see `preReplace`). -/
def processMathElement (compile : List Char → Except (List Char) (List Char))
    (parse : List Char → List Hast) (parentTag : String)
    (t : String) (c : List String) (s : String) (ch : List Hast) : Hast :=
  let code := nodeCode ch
  let dm := nodeDisplayMode c parentTag code
  match renderTypstToSVG compile (trimList code) dm with
  | .error msg => .element t c s (errorChildren msg)
  | .ok svg =>
    match (parse svg).head? with
    | none => .element t c s ch
    | some (.htext _) => .element t c s (errorChildren typeErrMsg)
    | some (.element st sc ss sch) =>
      let svgNode := styledSvg (.element st sc ss sch) dm
      if dm then
        if parentTag = "pre" then .element t c s ch
        else .element ("div") [("typst-display")] ("") [svgNode]
      else .element ("span") [("typst-inline")] ("display: inline-block;") [svgNode]

/-- Replacement of a whole `<pre>` wrapper by the rendered svg of its first
successfully compiled math child (display mode is forced by the `pre`
parent).  Matches the mutation order of the source: the first success
rewrites the parent while it is still a `pre`; later jobs then see a `div`
parent and mutate only their own, orphaned node. -/
def preReplace (compile : List Char → Except (List Char) (List Char))
    (parse : List Char → List Hast) : List Hast → Option Hast
  | [] => none
  | Hast.htext _ :: rest => preReplace compile parse rest
  | Hast.element t c _ ch :: rest =>
    if isMathTarget t c then
      match renderTypstToSVG compile (trimList (nodeCode ch)) true with
      | .ok svg =>
        match (parse svg).head? with
        | some (.element st sc ss sch) =>
          some (.element ("div") [("typst-display")] ("")
            [styledSvg (.element st sc ss sch) true])
        | _ => preReplace compile parse rest
      | .error _ => preReplace compile parse rest
    else preReplace compile parse rest

mutual
/-- The full pass of `rehypeTypstCustom` on one node, carrying the parent's
tag name: collected math elements are substituted in place; a `pre` whose
math child compiles is replaced entirely; all other elements recurse into
their children. -/
def runNode (compile : List Char → Except (List Char) (List Char))
    (parse : List Char → List Hast) (parentTag : String) : Hast → Hast
  | .htext v => .htext v
  | .element t c s ch =>
    if isMathTarget t c then processMathElement compile parse parentTag t c s ch
    else
      match (if t = "pre" then preReplace compile parse ch else none) with
      | some n => n
      | none => .element t c s (runChildren compile parse t ch)

/-- `runNode` mapped over a child list (children see this node's tag as
their parent tag). -/
def runChildren (compile : List Char → Except (List Char) (List Char))
    (parse : List Char → List Hast) (parentTag : String) : List Hast → List Hast
  | [] => []
  | n :: rest => runNode compile parse parentTag n :: runChildren compile parse parentTag rest
end

/-- The exported rehype transformer applied to a whole tree (no parent above
the root, so the root's parent tag is the empty string, which is never
`"pre"`). -/
def rehypeTypstCustom (compile : List Char → Except (List Char) (List Char))
    (parse : List Char → List Hast) (tree : Hast) : Hast :=
  runNode compile parse ("") tree

mutual
/-- The job list collected by the single pre-order `visit` walk: every
element satisfying `isMathTarget`, paired with its parent's tag name. -/
def collectJobs (parentTag : String) : Hast → List (String × Hast)
  | .htext _ => []
  | .element t c s ch =>
    (if isMathTarget t c then [(parentTag, Hast.element t c s ch)] else []) ++
      collectJobsList t ch

/-- `collectJobs` over a child list. -/
def collectJobsList (selfTag : String) : List Hast → List (String × Hast)
  | [] => []
  | n :: rest => collectJobs selfTag n ++ collectJobsList selfTag rest
end

/-- Settlement of a single dispatched job: `processNode` catches every
failure, so the job's promise always fulfills; the `Except` value records
whether the job succeeded or was converted to an error marker. -/
def jobOutcome (compile : List Char → Except (List Char) (List Char))
    (parse : List Char → List Hast) (parentTag : String) : Hast → Except (List Char) Unit
  | .htext _ => .ok ()
  | .element _ c _ ch =>
    let code := nodeCode ch
    let dm := nodeDisplayMode c parentTag code
    match renderTypstToSVG compile (trimList code) dm with
    | .error msg => .error msg
    | .ok svg =>
      match (parse svg).head? with
      | some (.htext _) => .error typeErrMsg
      | _ => .ok ()

/-- The settled results of every dispatched job of one pipeline run: the
`await Promise.all(promises)` barrier completes exactly when this whole list
is available, one entry per collected job. -/
def stageOutcomes (compile : List Char → Except (List Char) (List Char))
    (parse : List Char → List Hast) (tree : Hast) : List (Except (List Char) Unit) :=
  (collectJobs ("") tree).map (fun pn => jobOutcome compile parse pn.1 pn.2)

/-- The external mdast-to-hast conversion (out of scope of the repository,
modelled from its documented behaviour): a text node becomes a hast text, an
`inlineCode` node becomes a `code` element whose `className` comes from
`data.hProperties.className` and whose single child is its value; opaque
siblings become opaque elements. -/
def mdastToHast : MNode → Hast
  | .text v => .htext v
  | .other _ => .element ("span") [] ("") []
  | .mathCode v d _ =>
    .element ("code") [if d then ("typst-math-display") else ("typst-math-inline")] ("")
      [.htext v]

/-- Reconstructed flattened contribution of one node of the spliced output,
as prescribed by the round-trip property: a math segment stands for its
original raw delimited text, every untouched non-text node for its
placeholder. -/
def flattenOut1 : MNode → List Char
  | .text v => v
  | .other _ => ['\x00']
  | .mathCode _ _ raw => raw

/-- Reconstructed flattened view of a spliced sibling sequence. -/
def flattenOutList (cs : List MNode) : List Char :=
  (cs.map flattenOut1).flatten

/-- Discriminator for math segment nodes. -/
def isMathSeg : MNode → Bool
  | .mathCode _ _ _ => true
  | _ => false

/-- A minimal collected math element (a `math-display`-classed span with a
single text child), used to state the dispatch/barrier property. -/
def mkMathCell (v : List Char) : Hast :=
  .element ("span") [("math-display")] ("") [.htext v]

theorem firstIdx_lt_length {c : Char} : ∀ {l : List Char} {k : Nat},
    firstIdx c l = some k → k < l.length := by
  intro l
  induction l with
  | nil => intro k h; simp [firstIdx] at h
  | cons x xs ih =>
    intro k h
    by_cases hx : x = c
    · simp [firstIdx, hx] at h
      simp only [List.length_cons]
      omega
    · simp [firstIdx, hx] at h
      obtain ⟨k', hk', rfl⟩ := h
      have := ih hk'
      simp
      omega

theorem findFrom_bounds {s : List Char} {i p : Nat} (h : findFrom s i = some p) :
    i ≤ p ∧ p < s.length := by
  simp [findFrom] at h
  obtain ⟨k, hk, rfl⟩ := h
  have := firstIdx_lt_length hk
  simp at this
  omega

theorem closeEnd_ge {s : List Char} {q : Nat} : q + 1 ≤ closeEnd s q := by
  unfold closeEnd
  split <;> omega

theorem closeEnd_le {s : List Char} {q : Nat} (h : q < s.length) :
    closeEnd s q ≤ s.length := by
  unfold closeEnd
  split
  · next hq =>
    have h2 : q + 1 < s.length := by
      rcases List.getElem?_eq_some.mp hq with ⟨hlt, _⟩
      exact hlt
    omega
  · omega

theorem matchAt_bounds {s : List Char} {p : Nat} {m : RMatch} (h : matchAt s p = some m) :
    m.start = p ∧ p + 3 ≤ m.stop ∧ m.stop ≤ s.length := by
  unfold matchAt at h
  split at h
  · split at h
    · split at h
      · next q hq =>
        obtain ⟨h1, h2⟩ := findFrom_bounds hq
        cases h
        refine ⟨rfl, ?_, closeEnd_le h2⟩
        have h3 : q + 1 ≤ closeEnd s q := closeEnd_ge
        show p + 3 ≤ closeEnd s q
        omega
      · split at h
        · next q hq =>
          obtain ⟨h1, h2⟩ := findFrom_bounds hq
          cases h
          refine ⟨rfl, ?_, closeEnd_le h2⟩
          have h3 : q + 1 ≤ closeEnd s q := closeEnd_ge
          show p + 3 ≤ closeEnd s q
          omega
        · exact absurd h (by simp)
    · split at h
      · next q hq =>
        obtain ⟨h1, h2⟩ := findFrom_bounds hq
        cases h
        refine ⟨rfl, ?_, closeEnd_le h2⟩
        have h3 : q + 1 ≤ closeEnd s q := closeEnd_ge
        show p + 3 ≤ closeEnd s q
        omega
      · exact absurd h (by simp)
  · exact absurd h (by simp)

theorem execFromF_bounds {s : List Char} : ∀ {fuel i : Nat} {m : RMatch},
    execFromF s fuel i = some m →
    i ≤ m.start ∧ m.start + 3 ≤ m.stop ∧ m.stop ≤ s.length := by
  intro fuel
  induction fuel with
  | zero => intro i m h; simp [execFromF] at h
  | succ n ih =>
    intro i m h
    unfold execFromF at h
    split at h
    · exact absurd h (by simp)
    · next p hp =>
      split at h
      · next m' hm =>
        cases h
        obtain ⟨h1, h2, h3⟩ := matchAt_bounds hm
        have := (findFrom_bounds hp).1
        omega
      · have := ih h
        have := (findFrom_bounds hp).1
        omega

theorem execFrom_bounds {s : List Char} {i : Nat} {m : RMatch}
    (h : execFrom s i = some m) :
    i ≤ m.start ∧ m.start + 3 ≤ m.stop ∧ m.stop ≤ s.length :=
  execFromF_bounds h

/-- C1: a math segment produced by the remark Matcher/Splicer is marked with
class `typst-math-inline` / `typst-math-display`, but the rehype dispatcher's
tree walk only collects `math-inline` / `math-display` / `language-typst`
nodes — so the segment produced from `$x^2$` yields an empty job list: the
walk dispatches no job for it, contradicting the claim (and the repository
README, which documents the two plugins as a working pipeline). -/
theorem c1_splicer_segment_never_dispatched :
    processParagraph [MNode.text (("$x^2$").data)] =
      [MNode.mathCode (("x^2").data) false (("$x^2$").data)] ∧
    collectJobs ("") (Hast.element ("p") [] ("")
      [mdastToHast (MNode.mathCode (("x^2").data) false (("$x^2$").data))]) = [] :=
  ⟨by decide, rfl⟩

/-- C2 (counterexample): for the render job with content `x`, the
display-mode template contains no inset box directive while the inline-mode
template does contain it — the opposite of the claim. -/
theorem c2_counterexample :
    ¬ List.IsInfix (("inset").data) (renderTemplate (("x").data) true) ∧
    List.IsInfix (("inset").data) (renderTemplate (("x").data) false) := by decide

/-- C2 (amended): for content without native Typst delimiters, it is the
INLINE-mode template that wraps equations in the inset box show rule;
the display-mode template has no box directive (the page-setting prefix
contains none). -/
theorem c2_box_on_inline_not_display (code : List Char)
    (h : hasTypstDelimiters (trimList code) = false) :
    renderTemplate code true =
      setPageLine ++ '\n' :: ((("$ ").data ++ trimList code ++ (" $").data)) ∧
    renderTemplate code false =
      setPageLine ++ '\n' :: showBoxLine ++ '\n' :: ((("$ ").data ++ trimList code ++ (" $").data)) ∧
    List.IsInfix (("box(it, inset: (top: 0.5em, bottom: 0.5em))").data) showBoxLine ∧
    ¬ List.IsInfix (("box").data) setPageLine := by
  refine ⟨?_, ?_, by decide, by decide⟩ <;> simp [renderTemplate, h]

/-- Witness for C2 (amended) at `code = "x"`. -/
theorem c2_box_on_inline_not_display_witness :
    hasTypstDelimiters (trimList (("x").data)) = false ∧
    renderTemplate (("x").data) true =
      setPageLine ++ '\n' :: ((("$ ").data ++ trimList (("x").data) ++ (" $").data)) :=
  ⟨by decide, (c2_box_on_inline_not_display (("x").data) (by decide)).1⟩

/-- C3: the remark pass stores `{a, b}` as `&#123;a, b&#125;`, but no
unescaping exists anywhere in the rehype plugin: the code string handed to
`renderTypstToSVG` is the stored value itself, and the template handed to the
external compiler still contains the literal text `&#123;` and no left brace
at all — the escaping is never undone at the engine boundary. -/
theorem c3_braces_reach_engine_escaped :
    processParagraph [MNode.text (("$\x7ba, b\x7d$").data)] =
      [MNode.mathCode (("&#123;a, b&#125;").data) false (("$\x7ba, b\x7d$").data)] ∧
    trimList (nodeCode [Hast.htext (("&#123;a, b&#125;").data)]) = (("&#123;a, b&#125;").data) ∧
    List.IsInfix (("&#123;").data) (renderTemplate (("&#123;a, b&#125;").data) true) ∧
    ((renderTemplate (("&#123;a, b&#125;").data) true).contains braceL) = false := by decide

/-- C5 (counterexample): the whitespace-only run `$ $` is NOT skipped — the
Matcher/Splicer still creates a math segment node for it. -/
theorem c5_counterexample :
    (processParagraph [MNode.text (("$ $").data)]).any isMathSeg = true := by decide

/-- C5 (amended): a matched run with whitespace-only content produces a math
segment node with empty stored content (no malformed-segment skip exists in
the code); like every splicer-produced segment it is then never collected by
the dispatcher — because of the class-name mismatch, not because of any
emptiness check. -/
theorem c5_empty_segment_created_not_skipped :
    processParagraph [MNode.text (("$ $").data)] =
      [MNode.mathCode [] false (("$ $").data)] ∧
    collectJobs ("") (Hast.element ("p") [] ("")
      [mdastToHast (MNode.mathCode [] false (("$ $").data))]) = [] :=
  ⟨by decide, rfl⟩

theorem emitTail_buildMap_zero : ∀ (cs : List MNode) (pos : Nat),
    (∀ v, MNode.text v ∈ cs → v ≠ []) → emitTail 0 (buildMap cs pos) = cs := by
  intro cs
  induction cs with
  | nil => intro pos _; simp [buildMap, emitTail]
  | cons c cs ih =>
    intro pos h
    have hrest : ∀ v, MNode.text v ∈ cs → v ≠ [] :=
      fun v hv => h v (List.mem_cons_of_mem _ hv)
    cases c with
    | text v =>
      have hv : v ≠ [] := h v (List.mem_cons_self _ _)
      have hlen : 0 < v.length := List.length_pos.mpr hv
      simp only [buildMap, flatten1, emitTail]
      rw [if_neg (by omega)]
      have h0 : (0 : Nat) - pos = 0 := by omega
      simp [h0, List.isEmpty_iff, hv, ih _ hrest]
    | other k =>
      simp only [buildMap, flatten1, emitTail]
      rw [if_neg (by simp)]
      simp [ih _ hrest]
    | mathCode v d r =>
      simp only [buildMap, flatten1, emitTail]
      rw [if_neg (by simp)]
      simp [ih _ hrest]

/-- C8 (amended): a sibling sequence whose flattened view has no `'$'` is
returned unchanged (the fast path); and when the delimiter scan finds no
match, the pass rebuilds a structurally identical sequence provided no text
child is empty (empty text children are silently dropped by the rebuild). -/
theorem c8_no_dollar_or_no_match (cs : List MNode) :
    ('$' ∉ flattenChildren cs → processParagraph cs = cs) ∧
    (execFrom (flattenChildren cs) 0 = none →
      (∀ v, MNode.text v ∈ cs → v ≠ []) → processParagraph cs = cs) := by
  constructor
  · intro h
    simp [processParagraph, h]
  · intro hexec hne
    by_cases hd : '$' ∈ flattenChildren cs
    · simp only [processParagraph, if_pos hd]
      have hloop : spliceLoop (flattenChildren cs) (buildMap cs 0) 0 = cs := by
        show spliceLoopF _ _ ((flattenChildren cs).length + 1) 0 = cs
        simp [spliceLoopF, hexec, emitTail_buildMap_zero cs 0 hne]
      rw [hloop]
      split <;> rfl
    · simp [processParagraph, hd]

/-- Witness for C8 (amended): the scan of `a$b` finds no match (the run
never closes) and the pass is the identity on that paragraph. -/
theorem c8_no_dollar_or_no_match_witness :
    (execFrom (flattenChildren [MNode.text (("a$b").data)]) 0 = none) ∧
    processParagraph [MNode.text (("a$b").data)] = [MNode.text (("a$b").data)] :=
  ⟨by decide, (c8_no_dollar_or_no_match _).2 (by decide)
    (fun v hv => by
      simp at hv
      subst hv
      decide)⟩

/-- C8 (counterexample): with an empty text child and an unmatched `'$'`
present, the scan finds no match yet the pass drops the empty text node —
the output is not the input sequence. -/
theorem c8_counterexample :
    execFrom (flattenChildren [MNode.text [], MNode.text (("$x").data)]) 0 = none ∧
    processParagraph [MNode.text [], MNode.text (("$x").data)] =
      [MNode.text (("$x").data)] := by decide

/-- C10: when the compiler succeeds but the parsed SVG fragment has no first
child, the owning math node is left completely unchanged (no retagging, no
image child, no error marker), and the job still settles successfully,
counting toward the barrier. -/
theorem c10_empty_fragment_noop (compile : List Char → Except (List Char) (List Char))
    (parse : List Char → List Hast) (parentTag t : String) (c : List String) (s : String)
    (ch : List Hast) (svg : List Char)
    (hc : compile (renderTemplate (trimList (nodeCode ch))
            (nodeDisplayMode c parentTag (nodeCode ch))) = .ok svg)
    (hp : parse svg = []) :
    processMathElement compile parse parentTag t c s ch = .element t c s ch ∧
    jobOutcome compile parse parentTag (.element t c s ch) = .ok () := by
  constructor
  · simp [processMathElement, renderTypstToSVG, hc, hp]
  · simp [jobOutcome, renderTypstToSVG, hc, hp]

/-- Witness for C10 with a concrete compiler succeeding on everything and a
parser returning the empty fragment. -/
theorem c10_empty_fragment_noop_witness :
    ((fun _ => Except.ok (("x").data)) : List Char → Except (List Char) (List Char))
        (renderTemplate (trimList (nodeCode [Hast.htext (("y").data)]))
          (nodeDisplayMode [("math-inline")] ("p") (nodeCode [Hast.htext (("y").data)])))
      = .ok (("x").data) ∧
    processMathElement (fun _ => Except.ok (("x").data)) (fun _ => [])
        ("p") ("span") [("math-inline")] ("") [Hast.htext (("y").data)] =
      .element ("span") [("math-inline")] ("") [Hast.htext (("y").data)] :=
  ⟨rfl, (c10_empty_fragment_noop (fun _ => Except.ok (("x").data)) (fun _ => [])
    ("p") ("span") [("math-inline")] ("") [Hast.htext (("y").data)] (("x").data)
    rfl rfl).1⟩

theorem matchesWsAnyWs_iff (s : List Char) :
    matchesWsAnyWs s = true ↔
      ∃ h t rest, s = h :: (rest ++ [t]) ∧ jsWs h = true ∧ jsWs t = true := by
  constructor
  · intro hm
    unfold matchesWsAnyWs at hm
    simp only [List.any_eq_true, List.mem_range, Bool.and_eq_true, decide_eq_true_eq] at hm
    obtain ⟨i, hi, j, hj, ⟨⟨⟨h1i, hij⟩, htake⟩, hdrop⟩⟩ := hm
    have hlen : 2 ≤ s.length := by omega
    obtain ⟨h, s', rfl⟩ : ∃ h s', s = h :: s' := by
      cases s with
      | nil => simp at hlen
      | cons a l => exact ⟨a, l, rfl⟩
    obtain (rfl | ⟨rest, t, rfl⟩) := s'.eq_nil_or_concat
    · simp at hlen
    simp only [List.concat_eq_append] at hi hj htake hdrop hlen ⊢
    refine ⟨h, t, rest, rfl, ?_, ?_⟩
    · cases i with
      | zero => omega
      | succ i' =>
        simp only [List.take_succ_cons, List.all_cons, Bool.and_eq_true] at htake
        exact htake.1
    · have hjlen : j ≤ (h :: rest).length := by
        simp only [List.length_cons, List.length_append, List.length_nil] at hj ⊢
        omega
      have hsplit : (h :: (rest ++ [t])).drop j = (h :: rest).drop j ++ [t] := by
        have hform : h :: (rest ++ [t]) = (h :: rest) ++ [t] := by simp
        rw [hform, List.drop_append_of_le_length hjlen]
      rw [hsplit] at hdrop
      simp only [List.all_append, List.all_cons, List.all_nil, Bool.and_eq_true] at hdrop
      exact hdrop.2.1
  · rintro ⟨h, t, rest, rfl, hh, ht⟩
    unfold matchesWsAnyWs
    simp only [List.any_eq_true, List.mem_range, Bool.and_eq_true, decide_eq_true_eq]
    refine ⟨1, by simp, rest.length + 1, by simp, ⟨⟨⟨le_refl 1, by omega⟩, ?_⟩, ?_⟩⟩
    · simp [hh]
    · have hdropeq : (h :: (rest ++ [t])).drop (rest.length + 1) = [t] := by
        simp only [List.drop_succ_cons]
        rw [List.drop_append_of_le_length (le_refl rest.length)]
        simp
      rw [hdropeq]
      simp [ht]

theorem mem_of_mem_trimList {x : Char} {s : List Char} (h : x ∈ trimList s) : x ∈ s := by
  unfold trimList at h
  rw [List.mem_reverse] at h
  have h2 := (List.dropWhile_sublist _).subset h
  rw [List.mem_reverse] at h2
  exact (List.dropWhile_sublist _).subset h2

theorem escapeBraces_of_no_braces : ∀ {s : List Char},
    braceL ∉ s → braceR ∉ s → escapeBraces s = s := by
  intro s
  induction s with
  | nil => intro _ _; rfl
  | cons c cs ih =>
    intro h1 h2
    have hc1 : c ≠ braceL := fun he => h1 (he ▸ List.mem_cons_self _ _)
    have hc2 : c ≠ braceR := fun he => h2 (he ▸ List.mem_cons_self _ _)
    have hr := ih (fun hm => h1 (List.mem_cons_of_mem _ hm))
      (fun hm => h2 (List.mem_cons_of_mem _ hm))
    simp only [escapeBraces, List.flatMap_cons, if_neg hc1, if_neg hc2] at *
    simp [hr]

/-- C6: a `$$...`-opened match is always display; a single-`$` match is
display exactly when the capture has at least one leading and one trailing
`\s` character (so at least two characters; asymmetric whitespace stays
inline); the stored value is the capture trimmed (then brace-escaped, the
identity for brace-free content).  Checked end-to-end on `$x^2$` (inline),
`$ x^2 $` (display), `$$x^2$$` (display) and `$ x^2$` (inline). -/
theorem c6_mode_classification :
    (∀ (s : List Char) (m : RMatch) (v : List Char) (d : Bool) (raw : List Char),
      mkMathNode s m = .mathCode v d raw →
      ((d = true ↔ raw.take 2 = ['$', '$'] ∨
          ∃ h t rest, m.content = h :: (rest ++ [t]) ∧ jsWs h = true ∧ jsWs t = true) ∧
        v = escapeBraces (trimList m.content) ∧
        (braceL ∉ m.content → braceR ∉ m.content → v = trimList m.content))) ∧
    processTextNode (("$x^2$").data) =
      [.mathCode (("x^2").data) false (("$x^2$").data)] ∧
    processTextNode (("$ x^2 $").data) =
      [.mathCode (("x^2").data) true (("$ x^2 $").data)] ∧
    processTextNode (("$$x^2$$").data) =
      [.mathCode (("x^2").data) true (("$$x^2$$").data)] ∧
    processTextNode (("$ x^2$").data) =
      [.mathCode (("x^2").data) false (("$ x^2$").data)] := by
  refine ⟨?_, by decide, by decide, by decide, by decide⟩
  intro s m v d raw hmk
  simp only [mkMathNode, MNode.mathCode.injEq] at hmk
  obtain ⟨hv, hd, hraw⟩ := hmk
  subst hv hraw
  constructor
  · rw [← hd]
    simp only [Bool.or_eq_true, decide_eq_true_eq]
    rw [matchesWsAnyWs_iff]
  · refine ⟨rfl, ?_⟩
    intro h1 h2
    have h1t : braceL ∉ trimList m.content := fun hm => h1 (mem_of_mem_trimList hm)
    have h2t : braceR ∉ trimList m.content := fun hm => h2 (mem_of_mem_trimList hm)
    exact escapeBraces_of_no_braces h1t h2t

/-- Witness for C6 at the display run `$ x $` (match `⟨0, 5, " x "⟩`). -/
theorem c6_mode_classification_witness :
    mkMathNode (("$ x $").data) ⟨0, 5, ((" x ").data)⟩ =
      MNode.mathCode (("x").data) true (("$ x $").data) ∧
    (true = true ↔ (("$ x $").data).take 2 = ['$', '$'] ∨
      ∃ h t rest, ((" x ").data) = h :: (rest ++ [t]) ∧ jsWs h = true ∧ jsWs t = true) ∧
    (("x").data) = trimList ((" x ").data) :=
  ⟨by decide,
    (c6_mode_classification.1 (("$ x $").data) ⟨0, 5, ((" x ").data)⟩
      (("x").data) true (("$ x $").data) (by decide)).1,
    ((c6_mode_classification.1 (("$ x $").data) ⟨0, 5, ((" x ").data)⟩
      (("x").data) true (("$ x $").data) (by decide)).2.2 (by decide) (by decide))⟩

theorem dropWhile_append_of_all {p : Char → Bool} {A X : List Char} (hA : A.all p = true) :
    (A ++ X).dropWhile p = X.dropWhile p := by
  induction A with
  | nil => simp
  | cons a A ih =>
    simp only [List.all_cons, Bool.and_eq_true] at hA
    simp only [List.cons_append, List.dropWhile_cons, hA.1, if_pos]
    exact ih hA.2

theorem all_takeWhile {p : Char → Bool} : ∀ {l : List Char}, (l.takeWhile p).all p = true := by
  intro l
  induction l with
  | nil => rfl
  | cons a l ih =>
    by_cases h : p a
    · simp [List.takeWhile_cons_of_pos h, h, ih]
    · simp [List.takeWhile_cons_of_neg h]

theorem trimList_append_ws {A M B : List Char} (hA : A.all jsWs = true)
    (hB : B.all jsWs = true) :
    trimList (A ++ M ++ B) = trimList M := by
  unfold trimList
  rw [List.append_assoc, dropWhile_append_of_all hA, List.dropWhile_append]
  by_cases hM : (M.dropWhile jsWs).isEmpty
  · rw [if_pos hM]
    have hB0 : B.dropWhile jsWs = [] :=
      List.dropWhile_eq_nil_iff.mpr (fun x hx => List.all_eq_true.mp hB x hx)
    have hM0 : M.dropWhile jsWs = [] := by
      rwa [List.isEmpty_iff] at hM
    rw [hB0, hM0]
  · rw [if_neg hM]
    rw [List.reverse_append, dropWhile_append_of_all (by rw [List.all_reverse]; exact hB)]

theorem slice_decomp {s : List Char} {i j : Nat} (hij : i ≤ j) (_hj : j ≤ s.length) :
    s = s.take i ++ sliceChars s i j ++ s.drop j := by
  have h1 : (s.drop i).drop (j - i) = s.drop j := by
    rw [List.drop_drop]
    congr 1
    omega
  conv_lhs => rw [← List.take_append_drop i s, ← List.take_append_drop (j - i) (s.drop i)]
  rw [h1, ← List.append_assoc]
  rfl

theorem take_length_takeWhile {p : Char → Bool} : ∀ (l : List Char),
    l.take (l.takeWhile p).length = l.takeWhile p := by
  intro l
  induction l with
  | nil => rfl
  | cons a l ih =>
    by_cases h : p a
    · rw [List.takeWhile_cons_of_pos h]
      simp only [List.length_cons, List.take_succ_cons]
      rw [ih]
    · rw [List.takeWhile_cons_of_neg h]
      rfl

theorem drop_length_takeWhile {p : Char → Bool} : ∀ (l : List Char),
    l.drop (l.takeWhile p).length = l.dropWhile p := by
  intro l
  induction l with
  | nil => rfl
  | cons a l ih =>
    by_cases h : p a
    · rw [List.takeWhile_cons_of_pos h, List.dropWhile_cons_of_pos h]
      simp only [List.length_cons, List.drop_succ_cons]
      exact ih
    · rw [List.takeWhile_cons_of_neg h, List.dropWhile_cons_of_neg h]
      rfl

theorem dropWhile_eq_trim_append (s : List Char) :
    s.dropWhile jsWs = trimList s ++ ((s.dropWhile jsWs).reverse.takeWhile jsWs).reverse := by
  conv_lhs =>
    rw [← List.reverse_reverse (s.dropWhile jsWs),
      ← List.takeWhile_append_dropWhile (p := jsWs) (l := (s.dropWhile jsWs).reverse)]
  rw [List.reverse_append]
  rfl

theorem trim_decomp (s : List Char) :
    s = s.takeWhile jsWs ++ trimList s ++
        ((s.dropWhile jsWs).reverse.takeWhile jsWs).reverse := by
  conv_lhs =>
    rw [← List.takeWhile_append_dropWhile (p := jsWs) (l := s), dropWhile_eq_trim_append s]
  rw [List.append_assoc]

theorem matchesWsDotWs_iff (s : List Char) :
    matchesWsDotWs s = true ↔
      ∃ h t rest, s = h :: (rest ++ [t]) ∧ jsWs h = true ∧ jsWs t = true ∧
        (trimList s).all (fun c => !(isLineTerm c)) = true := by
  constructor
  · intro hm
    unfold matchesWsDotWs at hm
    simp only [List.any_eq_true, List.mem_range, Bool.and_eq_true, decide_eq_true_eq] at hm
    obtain ⟨i, hi, j, hj, ⟨⟨⟨⟨h1i, hij⟩, htake⟩, hmid⟩, hdrop⟩⟩ := hm
    have hlen : 2 ≤ s.length := by omega
    have hdecomp : s = s.take i ++ sliceChars s i j ++ s.drop j :=
      slice_decomp hij (by omega)
    have htrim : trimList s = trimList (sliceChars s i j) := by
      conv_lhs => rw [hdecomp]
      exact trimList_append_ws htake hdrop
    have hLT : (trimList s).all (fun c => !(isLineTerm c)) = true := by
      rw [htrim, List.all_eq_true]
      rw [List.all_eq_true] at hmid
      exact fun x hx => hmid x (mem_of_mem_trimList hx)
    obtain ⟨h, s', hs⟩ : ∃ h s', s = h :: s' := by
      cases s with
      | nil => simp at hlen
      | cons a l => exact ⟨a, l, rfl⟩
    subst hs
    obtain (rfl | ⟨rest, t, rfl⟩) := s'.eq_nil_or_concat
    · simp at hlen
    simp only [List.concat_eq_append] at hi hj htake hdrop hLT hlen ⊢
    refine ⟨h, t, rest, rfl, ?_, ?_, hLT⟩
    · cases i with
      | zero => omega
      | succ i' =>
        simp only [List.take_succ_cons, List.all_cons, Bool.and_eq_true] at htake
        exact htake.1
    · have hjlen : j ≤ (h :: rest).length := by
        simp only [List.length_cons, List.length_append, List.length_nil] at hj ⊢
        omega
      have hsplit : (h :: (rest ++ [t])).drop j = (h :: rest).drop j ++ [t] := by
        have hform : h :: (rest ++ [t]) = (h :: rest) ++ [t] := by simp
        rw [hform, List.drop_append_of_le_length hjlen]
      rw [hsplit] at hdrop
      simp only [List.all_append, List.all_cons, List.all_nil, Bool.and_eq_true] at hdrop
      exact hdrop.2.1
  · rintro ⟨h, t, rest, hs, hh, ht, hLT⟩
    unfold matchesWsDotWs
    simp only [List.any_eq_true, List.mem_range, Bool.and_eq_true, decide_eq_true_eq]
    by_cases hall : s.dropWhile jsWs = []
    · have hallws : ∀ x ∈ s, jsWs x = true := by
        intro x hx
        exact List.dropWhile_eq_nil_iff.mp hall x hx
      refine ⟨1, ?_, 1, ?_, ⟨⟨⟨⟨by omega, le_refl 1⟩, ?_⟩, ?_⟩, ?_⟩⟩
      · rw [hs]
        simp only [List.length_cons, List.length_append, List.length_nil]
        omega
      · rw [hs]
        simp only [List.length_cons, List.length_append, List.length_nil]
        omega
      · rw [hs]
        simp [hh]
      · simp [sliceChars]
      · rw [List.all_eq_true]
        intro x hx
        exact hallws x ((List.drop_sublist _ _).subset hx)
    · have hd : s = s.takeWhile jsWs ++ trimList s ++
          ((s.dropWhile jsWs).reverse.takeWhile jsWs).reverse := trim_decomp s
      have hAall : (s.takeWhile jsWs).all jsWs = true := all_takeWhile
      have hBall : (((s.dropWhile jsWs).reverse.takeWhile jsWs).reverse).all jsWs = true := by
        rw [List.all_reverse]
        exact all_takeWhile
      have hAlen : 1 ≤ (s.takeWhile jsWs).length := by
        rw [hs, List.takeWhile_cons_of_pos hh]
        simp
      obtain ⟨u', a, hu⟩ := (s.dropWhile jsWs).eq_nil_or_concat.resolve_left hall
      have hlast1 : s.getLast? = some t := by
        rw [hs, show h :: (rest ++ [t]) = (h :: rest) ++ [t] from by simp]
        exact List.getLast?_concat _
      have hlast2 : s.getLast? = some a := by
        conv_lhs => rw [← List.takeWhile_append_dropWhile (p := jsWs) (l := s), hu]
        rw [List.concat_eq_append, ← List.append_assoc]
        exact List.getLast?_concat _
      have hat : a = t := by
        rw [hlast1] at hlast2
        exact (Option.some.inj hlast2).symm
      have hBne : (((s.dropWhile jsWs).reverse.takeWhile jsWs).reverse) ≠ [] := by
        rw [hu, List.concat_eq_append, List.reverse_append]
        simp only [List.reverse_cons, List.reverse_nil, List.nil_append, List.singleton_append]
        rw [List.takeWhile_cons_of_pos (by rw [hat]; exact ht)]
        simp
      have hlens : s.length = (s.takeWhile jsWs).length + (trimList s).length +
          (((s.dropWhile jsWs).reverse.takeWhile jsWs).reverse).length := by
        conv_lhs => rw [hd]
        simp only [List.length_append]
      have hBlen : 1 ≤ (((s.dropWhile jsWs).reverse.takeWhile jsWs).reverse).length := by
        cases hBx : ((s.dropWhile jsWs).reverse.takeWhile jsWs).reverse with
        | nil => exact absurd hBx hBne
        | cons y ys => simp
      refine ⟨(s.takeWhile jsWs).length, by omega,
        (s.takeWhile jsWs).length + (trimList s).length, by omega,
        ⟨⟨⟨⟨hAlen, by omega⟩, ?_⟩, ?_⟩, ?_⟩⟩
      · rw [take_length_takeWhile]
        exact hAall
      · have hsl : sliceChars s (s.takeWhile jsWs).length
            ((s.takeWhile jsWs).length + (trimList s).length) = trimList s := by
          unfold sliceChars
          have harith : (s.takeWhile jsWs).length + (trimList s).length -
              (s.takeWhile jsWs).length = (trimList s).length := by omega
          rw [harith, drop_length_takeWhile, dropWhile_eq_trim_append s, List.take_left]
        rw [hsl]
        exact hLT
      · have h1 : (s.drop (s.takeWhile jsWs).length).drop (trimList s).length =
            ((s.dropWhile jsWs).reverse.takeWhile jsWs).reverse := by
          rw [drop_length_takeWhile]
          conv_lhs => rw [dropWhile_eq_trim_append s]
          rw [List.drop_left]
        rw [List.drop_drop] at h1
        have hdd : s.drop ((s.takeWhile jsWs).length + (trimList s).length) =
            ((s.dropWhile jsWs).reverse.takeWhile jsWs).reverse := by
          exact h1
        rw [hdd]
        exact hBall

/-- C9 (counterexample): the code text `" a\nb "` begins and ends with a
whitespace character, yet an inline-tagged node with a non-pre parent and
this code is classified INLINE — `.` in `/^\s+.*\s+$/` does not match the
line terminator, so the claim's "begins and ends with whitespace"
characterization is wrong for multiline code. -/
theorem c9_counterexample :
    ((((" a\nb ").data).take 1).all jsWs = true) ∧
    ((((" a\nb ").data).drop 5).all jsWs = true) ∧
    nodeDisplayMode [("math-inline")] ("p") ((" a\nb ").data) = false := by decide

/-- C9 (amended): a collected math node is rendered display iff it carries
the `math-display` class, or its parent element is a `pre`, or its raw code
text both begins and ends with a whitespace character AND its trimmed core
contains no line terminator (the `.*` middle of `/^\s+.*\s+$/` cannot cross
a line terminator, so whitespace-padded multiline code stays inline). -/
theorem c9_display_classification (classes : List String) (parentTag : String)
    (code : List Char) :
    nodeDisplayMode classes parentTag code = true ↔
      (classes.contains ("math-display") = true ∨ parentTag = "pre" ∨
        (∃ h t rest, code = h :: (rest ++ [t]) ∧ jsWs h = true ∧ jsWs t = true ∧
          (trimList code).all (fun c => !(isLineTerm c)) = true)) := by
  unfold nodeDisplayMode
  simp only [Bool.or_eq_true, decide_eq_true_eq]
  rw [matchesWsDotWs_iff]
  tauto

theorem sliceChars_concat {s : List Char} {a b c : Nat} (hab : a ≤ b) (hbc : b ≤ c) :
    sliceChars s a b ++ sliceChars s b c = sliceChars s a c := by
  unfold sliceChars
  have h1 : s.drop b = (s.drop a).drop (b - a) := by
    rw [List.drop_drop]
    congr 1
    omega
  rw [h1, ← List.take_add]
  congr 1
  omega

theorem sliceChars_empty {s : List Char} {a b : Nat} (h : b ≤ a) : sliceChars s a b = [] := by
  unfold sliceChars
  have hz : b - a = 0 := by omega
  rw [hz, List.take_zero]

theorem sliceChars_full (s : List Char) : sliceChars s 0 s.length = s := by
  unfold sliceChars
  simp

theorem sliceChars_singleton {s : List Char} {p : Nat} {x : Char} (h : s[p]? = some x) :
    sliceChars s p (p+1) = [x] := by
  unfold sliceChars
  have hlt : p < s.length := (List.getElem?_eq_some.mp h).1
  rw [List.drop_eq_getElem_cons hlt]
  have hx : s[p] = x := by
    have := List.getElem?_eq_getElem hlt
    rw [h] at this
    exact (Option.some.inj this).symm
  rw [hx]
  have hone : p + 1 - p = 1 := by omega
  rw [hone]
  rfl

theorem sliceChars_append_inner {pre v R : List Char} {x y : Nat} (hy : y ≤ v.length) :
    sliceChars ((pre ++ v) ++ R) (pre.length + x) (pre.length + y) = sliceChars v x y := by
  unfold sliceChars
  rw [List.append_assoc, List.drop_append]
  have harith : pre.length + y - (pre.length + x) = y - x := by omega
  rw [harith]
  by_cases hx : x ≤ v.length
  · rw [List.drop_append_of_le_length hx]
    rw [List.take_append_of_le_length (by simp only [List.length_drop]; omega)]
  · have hz : y - x = 0 := by omega
    rw [hz, List.take_zero, List.take_zero]

theorem flattenOutList_append (x y : List MNode) :
    flattenOutList (x ++ y) = flattenOutList x ++ flattenOutList y := by
  unfold flattenOutList
  rw [List.map_append, List.flatten_append]

theorem flattenOutList_cons (n : MNode) (x : List MNode) :
    flattenOutList (n :: x) = flattenOut1 n ++ flattenOutList x := rfl

theorem flattenOut_eq_flatten_of_noMath : ∀ {cs : List MNode},
    (∀ n ∈ cs, isMathSeg n = false) → flattenOutList cs = flattenChildren cs := by
  intro cs
  induction cs with
  | nil => intro _; rfl
  | cons c cs ih =>
    intro h
    have hc := h c (List.mem_cons_self _ _)
    have hrest := fun n hn => h n (List.mem_cons_of_mem _ hn)
    show flattenOut1 c ++ flattenOutList cs = flatten1 c ++ flattenChildren cs
    rw [ih hrest]
    congr 1
    cases c with
    | text v => rfl
    | other k => rfl
    | mathCode v d r => simp [isMathSeg] at hc

theorem flattenOut_textOpt (x : List Char) :
    flattenOutList (if x.isEmpty then ([] : List MNode) else [MNode.text x]) = x := by
  by_cases hx : x.isEmpty
  · rw [if_pos hx]
    rw [List.isEmpty_iff] at hx
    rw [hx]
    rfl
  · rw [if_neg hx]
    show x ++ flattenOutList [] = x
    simp [flattenOutList]

theorem emitGap_recon : ∀ (cs : List MNode) (pre F : List Char) (a b : Nat),
    F = pre ++ flattenChildren cs →
    (∀ n ∈ cs, isMathSeg n = false) →
    a ≤ b → b ≤ F.length →
    flattenOutList (emitGap F a b (buildMap cs pre.length)) =
      sliceChars F (max pre.length a) b := by
  intro cs
  induction cs with
  | nil =>
    intro pre F a b hF _ hab hb
    have hFl : F.length = pre.length := by
      rw [hF]
      simp [flattenChildren]
    rw [show buildMap [] pre.length = [] from rfl,
      show emitGap F a b [] = [] from rfl,
      show flattenOutList [] = [] from rfl]
    exact (sliceChars_empty (by omega)).symm
  | cons c cs ih =>
    intro pre F a b hF hm hab hb
    have hmc : isMathSeg c = false := hm c (List.mem_cons_self _ _)
    have hmr : ∀ n ∈ cs, isMathSeg n = false := fun n hn => hm n (List.mem_cons_of_mem _ hn)
    have hF' : F = (pre ++ flatten1 c) ++ flattenChildren cs := by
      rw [hF, show flattenChildren (c :: cs) = flatten1 c ++ flattenChildren cs from rfl,
        List.append_assoc]
    have hlen' : (pre ++ flatten1 c).length = pre.length + (flatten1 c).length := by simp
    rw [show buildMap (c :: cs) pre.length =
        ⟨pre.length, pre.length + (flatten1 c).length, c⟩ ::
          buildMap cs (pre.length + (flatten1 c).length) from rfl]
    by_cases h1 : pre.length + (flatten1 c).length ≤ a
    · rw [show emitGap F a b (⟨pre.length, pre.length + (flatten1 c).length, c⟩ ::
          buildMap cs (pre.length + (flatten1 c).length)) =
          emitGap F a b (buildMap cs (pre.length + (flatten1 c).length)) from by
        simp only [emitGap]
        rw [if_pos h1]]
      rw [show buildMap cs (pre.length + (flatten1 c).length) =
          buildMap cs ((pre ++ flatten1 c).length) from by rw [hlen']]
      rw [ih (pre ++ flatten1 c) F a b hF' hmr hab hb]
      congr 1
      rw [hlen']
      omega
    · by_cases h2 : b ≤ pre.length
      · rw [show emitGap F a b (⟨pre.length, pre.length + (flatten1 c).length, c⟩ ::
            buildMap cs (pre.length + (flatten1 c).length)) = [] from by
          simp only [emitGap]
          rw [if_neg h1, if_pos h2]]
        rw [show flattenOutList [] = [] from rfl]
        exact (sliceChars_empty (by omega)).symm
      · cases c with
        | mathCode v d r => simp [isMathSeg] at hmc
        | other k =>
          have hl1 : (flatten1 (MNode.other k)).length = 1 := rfl
          have hF0 : F[pre.length]? = some '\x00' := by
            rw [hF', List.getElem?_append_left (by rw [hlen', hl1]; omega),
              show flatten1 (MNode.other k) = ['\x00'] from rfl,
              List.getElem?_append_right (le_refl pre.length)]
            simp
          have hstep : emitGap F a b
              (⟨pre.length, pre.length + (flatten1 (MNode.other k)).length, MNode.other k⟩ ::
                buildMap cs (pre.length + (flatten1 (MNode.other k)).length)) =
              MNode.other k :: emitGap F a b
                (buildMap cs (pre.length + (flatten1 (MNode.other k)).length)) := by
            simp only [emitGap]
            rw [if_neg h1, if_neg h2, hF0]
            rw [if_neg (by simp)]
            rw [if_pos ⟨by rw [hl1] at h1; omega, by rw [hl1]; omega⟩]
            rfl
          rw [hstep, flattenOutList_cons]
          rw [show buildMap cs (pre.length + (flatten1 (MNode.other k)).length) =
              buildMap cs ((pre ++ flatten1 (MNode.other k)).length) from by rw [hlen']]
          rw [ih (pre ++ flatten1 (MNode.other k)) F a b hF' hmr hab hb]
          rw [show flattenOut1 (MNode.other k) = ['\x00'] from rfl]
          have hmax1 : max (pre ++ flatten1 (MNode.other k)).length a = pre.length + 1 := by
            rw [hlen', hl1]
            rw [hl1] at h1
            omega
          have hmax2 : max pre.length a = pre.length := by
            rw [hl1] at h1
            omega
          rw [hmax1, hmax2]
          have hsing : sliceChars F pre.length (pre.length + 1) = ['\x00'] :=
            sliceChars_singleton hF0
          rw [← hsing]
          exact sliceChars_concat (by omega) (by rw [hl1] at h1; omega)
        | text v =>
          have hl1 : (flatten1 (MNode.text v)).length = v.length := rfl
          have hstep : emitGap F a b
              (⟨pre.length, pre.length + (flatten1 (MNode.text v)).length, MNode.text v⟩ ::
                buildMap cs (pre.length + (flatten1 (MNode.text v)).length)) =
              (if (sliceChars v (a - pre.length) (min v.length (b - pre.length))).isEmpty then []
               else [MNode.text (sliceChars v (a - pre.length) (min v.length (b - pre.length)))]) ++
              emitGap F a b (buildMap cs (pre.length + (flatten1 (MNode.text v)).length)) := by
            simp only [emitGap]
            rw [if_neg h1, if_neg h2]
          rw [hstep, flattenOutList_append, flattenOut_textOpt]
          rw [show buildMap cs (pre.length + (flatten1 (MNode.text v)).length) =
              buildMap cs ((pre ++ flatten1 (MNode.text v)).length) from by rw [hlen']]
          rw [ih (pre ++ flatten1 (MNode.text v)) F a b hF' hmr hab hb]
          have hA : sliceChars v (a - pre.length) (min v.length (b - pre.length)) =
              sliceChars F (max pre.length a) (min (pre.length + v.length) b) := by
            have hx : max pre.length a = pre.length + (a - pre.length) := by omega
            have hy : min (pre.length + v.length) b = pre.length + min v.length (b - pre.length) := by
              omega
            rw [hx, hy, hF', show flatten1 (MNode.text v) = v from rfl]
            exact (sliceChars_append_inner (by omega)).symm
          rw [hA]
          rw [hlen', hl1]
          by_cases hbv : b ≤ pre.length + v.length
          · have hmin : min (pre.length + v.length) b = b := by omega
            have hmax : max (pre.length + v.length) a = pre.length + v.length := by
              rw [hl1] at h1
              omega
            have hempty2 : sliceChars F (pre.length + v.length) b = [] :=
              sliceChars_empty hbv
            rw [hmin, hmax, hempty2, List.append_nil]
          · have hmin : min (pre.length + v.length) b = pre.length + v.length := by omega
            have hmax : max (pre.length + v.length) a = pre.length + v.length := by
              rw [hl1] at h1
              omega
            rw [hmin, hmax]
            exact sliceChars_concat (by rw [hl1] at h1; omega) (by omega)

theorem emitTail_recon : ∀ (cs : List MNode) (pre F : List Char) (a : Nat),
    F = pre ++ flattenChildren cs →
    (∀ n ∈ cs, isMathSeg n = false) →
    flattenOutList (emitTail a (buildMap cs pre.length)) =
      sliceChars F (max pre.length a) F.length := by
  intro cs
  induction cs with
  | nil =>
    intro pre F a hF _
    have hFl : F.length = pre.length := by
      rw [hF]
      simp [flattenChildren]
    rw [show buildMap [] pre.length = [] from rfl, show emitTail a [] = [] from rfl,
      show flattenOutList [] = [] from rfl]
    exact (sliceChars_empty (by omega)).symm
  | cons c cs ih =>
    intro pre F a hF hm
    have hmc := hm c (List.mem_cons_self _ _)
    have hmr : ∀ n ∈ cs, isMathSeg n = false := fun n hn => hm n (List.mem_cons_of_mem _ hn)
    have hF' : F = (pre ++ flatten1 c) ++ flattenChildren cs := by
      rw [hF, show flattenChildren (c :: cs) = flatten1 c ++ flattenChildren cs from rfl,
        List.append_assoc]
    have hlen' : (pre ++ flatten1 c).length = pre.length + (flatten1 c).length := by simp
    have hflen := congrArg List.length hF'
    simp only [List.length_append] at hflen
    rw [show buildMap (c :: cs) pre.length =
        ⟨pre.length, pre.length + (flatten1 c).length, c⟩ ::
          buildMap cs (pre.length + (flatten1 c).length) from rfl]
    by_cases h1 : pre.length + (flatten1 c).length ≤ a
    · rw [show emitTail a (⟨pre.length, pre.length + (flatten1 c).length, c⟩ ::
          buildMap cs (pre.length + (flatten1 c).length)) =
          emitTail a (buildMap cs (pre.length + (flatten1 c).length)) from by
        simp only [emitTail]
        rw [if_pos h1]]
      rw [show buildMap cs (pre.length + (flatten1 c).length) =
          buildMap cs ((pre ++ flatten1 c).length) from by rw [hlen']]
      rw [ih (pre ++ flatten1 c) F a hF' hmr]
      congr 1
      rw [hlen']
      omega
    · cases c with
      | mathCode v d r => simp [isMathSeg] at hmc
      | other k =>
        have hl1 : (flatten1 (MNode.other k)).length = 1 := rfl
        have hF0 : F[pre.length]? = some '\x00' := by
          rw [hF', List.getElem?_append_left (by rw [hlen', hl1]; omega),
            show flatten1 (MNode.other k) = ['\x00'] from rfl,
            List.getElem?_append_right (le_refl pre.length)]
          simp
        have hstep : emitTail a
            (⟨pre.length, pre.length + (flatten1 (MNode.other k)).length, MNode.other k⟩ ::
              buildMap cs (pre.length + (flatten1 (MNode.other k)).length)) =
            MNode.other k :: emitTail a
              (buildMap cs (pre.length + (flatten1 (MNode.other k)).length)) := by
          simp only [emitTail]
          rw [if_neg h1, if_pos (by rw [hl1] at h1; omega)]
          rfl
        rw [hstep, flattenOutList_cons]
        rw [show buildMap cs (pre.length + (flatten1 (MNode.other k)).length) =
            buildMap cs ((pre ++ flatten1 (MNode.other k)).length) from by rw [hlen']]
        rw [ih (pre ++ flatten1 (MNode.other k)) F a hF' hmr]
        rw [show flattenOut1 (MNode.other k) = ['\x00'] from rfl]
        have hmax1 : max (pre ++ flatten1 (MNode.other k)).length a = pre.length + 1 := by
          rw [hlen', hl1]
          rw [hl1] at h1
          omega
        have hmax2 : max pre.length a = pre.length := by
          rw [hl1] at h1
          omega
        rw [hmax1, hmax2]
        have hsing : sliceChars F pre.length (pre.length + 1) = ['\x00'] :=
          sliceChars_singleton hF0
        rw [← hsing]
        refine sliceChars_concat (by omega) ?_
        rw [hl1] at hflen
        omega
      | text v =>
        have hl1 : (flatten1 (MNode.text v)).length = v.length := rfl
        have hstep : emitTail a
            (⟨pre.length, pre.length + (flatten1 (MNode.text v)).length, MNode.text v⟩ ::
              buildMap cs (pre.length + (flatten1 (MNode.text v)).length)) =
            (if (v.drop (a - pre.length)).isEmpty then []
             else [MNode.text (v.drop (a - pre.length))]) ++
            emitTail a (buildMap cs (pre.length + (flatten1 (MNode.text v)).length)) := by
          simp only [emitTail]
          rw [if_neg h1]
        rw [hstep, flattenOutList_append, flattenOut_textOpt]
        rw [show buildMap cs (pre.length + (flatten1 (MNode.text v)).length) =
            buildMap cs ((pre ++ flatten1 (MNode.text v)).length) from by rw [hlen']]
        rw [ih (pre ++ flatten1 (MNode.text v)) F a hF' hmr]
        have hdrop_slice : sliceChars v (a - pre.length) v.length = v.drop (a - pre.length) := by
          unfold sliceChars
          exact List.take_of_length_le (by simp only [List.length_drop]; omega)
        have hA : v.drop (a - pre.length) =
            sliceChars F (max pre.length a) (pre.length + v.length) := by
          have hx : max pre.length a = pre.length + (a - pre.length) := by
            rw [hl1] at h1
            omega
          rw [← hdrop_slice, hx, hF', show flatten1 (MNode.text v) = v from rfl]
          exact (sliceChars_append_inner (le_refl v.length)).symm
        rw [hA, hlen', hl1]
        have hmax : max (pre.length + v.length) a = pre.length + v.length := by
          rw [hl1] at h1
          omega
        rw [hmax]
        refine sliceChars_concat (by rw [hl1] at h1; omega) ?_
        rw [hl1] at hflen
        omega

theorem spliceLoopF_recon : ∀ (fuel : Nat) (cs : List MNode) (F : List Char) (li : Nat),
    F = flattenChildren cs →
    (∀ n ∈ cs, isMathSeg n = false) →
    F.length - li < fuel →
    flattenOutList (spliceLoopF F (buildMap cs 0) fuel li) = sliceChars F li F.length := by
  intro fuel
  induction fuel with
  | zero =>
    intro cs F li _ _ h
    omega
  | succ fuel ih =>
    intro cs F li hF hm hfuel
    cases hexec : execFrom F li with
    | none =>
      have ht := emitTail_recon cs [] F li (by simpa using hF) hm
      simp only [List.length_nil, Nat.zero_max] at ht
      rw [show spliceLoopF F (buildMap cs 0) (fuel+1) li = emitTail li (buildMap cs 0) from by
        simp only [spliceLoopF, hexec]]
      exact ht
    | some m =>
      obtain ⟨hstart, hstop3, hstople⟩ := execFrom_bounds hexec
      rw [show spliceLoopF F (buildMap cs 0) (fuel+1) li =
          emitGap F li m.start (buildMap cs 0) ++ mkMathNode F m ::
            spliceLoopF F (buildMap cs 0) fuel m.stop from by
        simp only [spliceLoopF, hexec]]
      rw [flattenOutList_append, flattenOutList_cons]
      have hg := emitGap_recon cs [] F li m.start (by simpa using hF) hm (by omega) (by omega)
      simp only [List.length_nil, Nat.zero_max] at hg
      rw [hg]
      rw [ih cs F m.stop hF hm (by omega)]
      rw [show flattenOut1 (mkMathNode F m) = sliceChars F m.start m.stop from rfl]
      rw [show sliceChars F m.start m.stop ++ sliceChars F m.stop F.length =
          sliceChars F m.start F.length from sliceChars_concat (by omega) (by omega)]
      exact sliceChars_concat (by omega) (by omega)

/-- C7: the Matcher/Splicer round-trip — for every sibling sequence (with no
pre-existing math segments), the flattened text reconstructed from the
spliced output (each math segment standing for its original raw delimited
text, each untouched non-text node for its placeholder) equals the original
flattened view exactly. -/
theorem c7_roundtrip (cs : List MNode) (hm : ∀ n ∈ cs, isMathSeg n = false) :
    flattenOutList (processParagraph cs) = flattenChildren cs := by
  unfold processParagraph
  by_cases hd : '$' ∈ flattenChildren cs
  · rw [if_pos hd]
    by_cases hempty : (spliceLoop (flattenChildren cs) (buildMap cs 0) 0).isEmpty
    · rw [if_pos hempty]
      exact flattenOut_eq_flatten_of_noMath hm
    · rw [if_neg hempty]
      rw [show spliceLoop (flattenChildren cs) (buildMap cs 0) 0 =
          spliceLoopF (flattenChildren cs) (buildMap cs 0)
            ((flattenChildren cs).length + 1) 0 from rfl]
      rw [spliceLoopF_recon ((flattenChildren cs).length + 1) cs (flattenChildren cs) 0 rfl hm
        (by omega)]
      exact sliceChars_full (flattenChildren cs)
  · rw [if_neg hd]
    exact flattenOut_eq_flatten_of_noMath hm

/-- Witness for C7 on the paragraph `[text "a $ x $ b", strong-placeholder]`. -/
theorem c7_roundtrip_witness :
    flattenOutList (processParagraph [MNode.text (("a $ x $ b").data), MNode.other 2]) =
      flattenChildren [MNode.text (("a $ x $ b").data), MNode.other 2] ∧
    processParagraph [MNode.text (("a $ x $ b").data), MNode.other 2] =
      [MNode.text (("a ").data), MNode.mathCode (("x").data) true (("$ x $").data),
        MNode.text ((" b").data), MNode.other 2] :=
  ⟨c7_roundtrip _ (fun n hn => by
      rcases List.mem_cons.mp hn with rfl | hn2
      · rfl
      · rcases List.mem_cons.mp hn2 with rfl | hn3
        · rfl
        · simp at hn3), by decide⟩

theorem runChildren_eq_map (compile : List Char → Except (List Char) (List Char))
    (parse : List Char → List Hast) (t : String) :
    ∀ l : List Hast, runChildren compile parse t l = l.map (runNode compile parse t) := by
  intro l
  induction l with
  | nil => rfl
  | cons x xs ih =>
    simp only [runChildren, List.map_cons]
    rw [ih]

theorem collectJobsList_cells (vs : List (List Char)) :
    collectJobsList ("root") (vs.map mkMathCell) =
      (vs.map mkMathCell).map (fun c => (("root"), c)) := by
  induction vs with
  | nil => rfl
  | cons v vs ih =>
    simp only [List.map_cons, collectJobsList]
    rw [ih]
    rfl

theorem cell_displayMode (v : List Char) :
    nodeDisplayMode [("math-display")] ("root") v = true := rfl

theorem runNode_cell (compile : List Char → Except (List Char) (List Char))
    (parse : List Char → List Hast) (v : List Char) :
    runNode compile parse ("root") (mkMathCell v) =
      processMathElement compile parse ("root") ("span") [("math-display")] ("")
        [Hast.htext v] := rfl

theorem processCell_fail (compile : List Char → Except (List Char) (List Char))
    (parse : List Char → List Hast) (v diag : List Char)
    (hfail : compile (renderTemplate (trimList v) true) = .error diag) :
    processMathElement compile parse ("root") ("span") [("math-display")] ("")
        [Hast.htext v] =
      Hast.element ("span") [("math-display")] ("")
        [Hast.htext ((("[Typst Error: ").data ++
          ((("Typst compilation failed: ").data ++ diag)) ++ ("]").data))] := by
  simp only [processMathElement, renderTypstToSVG]
  rw [show nodeCode [Hast.htext v] = v from rfl, cell_displayMode, hfail]
  rfl

theorem processCell_ok (compile : List Char → Except (List Char) (List Char))
    (parse : List Char → List Hast) (v svg : List Char) (st : String) (sc : List String)
    (ss : String) (sch : List Hast)
    (hc : compile (renderTemplate (trimList v) true) = .ok svg)
    (hp : (parse svg).head? = some (Hast.element st sc ss sch)) :
    processMathElement compile parse ("root") ("span") [("math-display")] ("")
        [Hast.htext v] =
      Hast.element ("div") [("typst-display")] ("")
        [Hast.element st sc displayStyleStr sch] := by
  simp only [processMathElement, renderTypstToSVG]
  rw [show nodeCode [Hast.htext v] = v from rfl, cell_displayMode, hc]
  simp only [hp]
  rfl

theorem jobOutcome_cell_fail (compile : List Char → Except (List Char) (List Char))
    (parse : List Char → List Hast) (v diag : List Char)
    (hfail : compile (renderTemplate (trimList v) true) = .error diag) :
    jobOutcome compile parse ("root") (mkMathCell v) =
      .error ((("Typst compilation failed: ").data ++ diag)) := by
  simp only [jobOutcome, mkMathCell, renderTypstToSVG]
  rw [show nodeCode [Hast.htext v] = v from rfl, cell_displayMode, hfail]

theorem jobOutcome_cell_ok (compile : List Char → Except (List Char) (List Char))
    (parse : List Char → List Hast) (v svg : List Char) (st : String) (sc : List String)
    (ss : String) (sch : List Hast)
    (hc : compile (renderTemplate (trimList v) true) = .ok svg)
    (hp : (parse svg).head? = some (Hast.element st sc ss sch)) :
    jobOutcome compile parse ("root") (mkMathCell v) = .ok () := by
  simp only [jobOutcome, mkMathCell, renderTypstToSVG]
  rw [show nodeCode [Hast.htext v] = v from rfl, cell_displayMode, hc]
  simp only [hp]

/-- C4: with K dispatched jobs where job `i`'s compile fails and every other
job compiles and parses to an svg element, the stage's settled-outcome list
(the `Promise.all` barrier completes exactly when this whole list exists) has
one entry per job — no sibling job is abandoned and the pass does not abort —
and in the resulting tree exactly node `i` carries a single visible text
child with the error marker including the failure's message, while the other
K−1 nodes are retagged containers holding their rendered svg. -/
theorem c4_barrier_and_error_isolation
    (compile : List Char → Except (List Char) (List Char))
    (parse : List Char → List Hast)
    (contents : List (List Char)) (i : Nat) (diag : List Char) (svgOf : Nat → List Char)
    (hi : i < contents.length)
    (hfail : compile (renderTemplate (trimList contents[i]) true) = .error diag)
    (hok : ∀ j (hj : j < contents.length), j ≠ i →
      compile (renderTemplate (trimList contents[j]) true) = .ok (svgOf j) ∧
      ∃ st sc ss sch, (parse (svgOf j)).head? = some (Hast.element st sc ss sch)) :
    runNode compile parse ("") (Hast.element ("root") [] ("") (contents.map mkMathCell)) =
      Hast.element ("root") [] ("")
        (runChildren compile parse ("root") (contents.map mkMathCell)) ∧
    (runChildren compile parse ("root") (contents.map mkMathCell))[i]? =
      some (Hast.element ("span") [("math-display")] ("")
        [Hast.htext ((("[Typst Error: ").data ++
          ((("Typst compilation failed: ").data ++ diag)) ++ ("]").data))]) ∧
    (∀ j (hj : j < contents.length), j ≠ i →
      ∃ st sc sch, (runChildren compile parse ("root") (contents.map mkMathCell))[j]? =
        some (Hast.element ("div") [("typst-display")] ("")
          [Hast.element st sc displayStyleStr sch])) ∧
    (stageOutcomes compile parse
        (Hast.element ("root") [] ("") (contents.map mkMathCell))).length =
      contents.length ∧
    (stageOutcomes compile parse
        (Hast.element ("root") [] ("") (contents.map mkMathCell)))[i]? =
      some (.error ((("Typst compilation failed: ").data ++ diag))) ∧
    (∀ j (hj : j < contents.length), j ≠ i →
      (stageOutcomes compile parse
          (Hast.element ("root") [] ("") (contents.map mkMathCell)))[j]? =
        some (.ok ())) := by
  have hrowj : ∀ j (hj : j < contents.length),
      (runChildren compile parse ("root") (contents.map mkMathCell))[j]? =
        some (runNode compile parse ("root") (mkMathCell contents[j])) := by
    intro j hj
    rw [runChildren_eq_map]
    rw [List.getElem?_map, List.getElem?_map]
    rw [List.getElem?_eq_getElem hj]
    rfl
  have houtj : ∀ j (hj : j < contents.length),
      (stageOutcomes compile parse
          (Hast.element ("root") [] ("") (contents.map mkMathCell)))[j]? =
        some (jobOutcome compile parse ("root") (mkMathCell contents[j])) := by
    intro j hj
    unfold stageOutcomes
    rw [show collectJobs ("") (Hast.element ("root") [] ("") (contents.map mkMathCell)) =
        collectJobsList ("root") (contents.map mkMathCell) from rfl]
    rw [collectJobsList_cells]
    rw [List.getElem?_map, List.getElem?_map, List.getElem?_map]
    rw [List.getElem?_eq_getElem hj]
    rfl
  refine ⟨rfl, ?_, ?_, ?_, ?_, ?_⟩
  · rw [hrowj i hi, runNode_cell, processCell_fail compile parse _ diag hfail]
  · intro j hj hne
    obtain ⟨hc, st, sc, ss, sch, hp⟩ := hok j hj hne
    exact ⟨st, sc, sch, by
      rw [hrowj j hj, runNode_cell, processCell_ok compile parse _ _ st sc ss sch hc hp]⟩
  · unfold stageOutcomes
    rw [show collectJobs ("") (Hast.element ("root") [] ("") (contents.map mkMathCell)) =
        collectJobsList ("root") (contents.map mkMathCell) from rfl]
    rw [collectJobsList_cells]
    simp
  · rw [houtj i hi, jobOutcome_cell_fail compile parse _ diag hfail]
  · intro j hj hne
    obtain ⟨hc, st, sc, ss, sch, hp⟩ := hok j hj hne
    rw [houtj j hj, jobOutcome_cell_ok compile parse _ _ st sc ss sch hc hp]

/-- Witness for C4 with K = 3 jobs, job 1 failing, on concrete oracles. -/
theorem c4_barrier_and_error_isolation_witness :
    (runChildren
        (fun tpl => if tpl = renderTemplate (("bad").data) true
          then Except.error (("boom").data) else Except.ok (("svg").data))
        (fun _ => [Hast.element ("svg") [] ("") []]) ("root")
        ([("a").data, ("bad").data, ("c").data].map mkMathCell))[1]? =
      some (Hast.element ("span") [("math-display")] ("")
        [Hast.htext ((("[Typst Error: ").data ++
          ((("Typst compilation failed: ").data ++ ("boom").data)) ++ ("]").data))]) ∧
    (stageOutcomes
        (fun tpl => if tpl = renderTemplate (("bad").data) true
          then Except.error (("boom").data) else Except.ok (("svg").data))
        (fun _ => [Hast.element ("svg") [] ("") []])
        (Hast.element ("root") [] ("")
          ([("a").data, ("bad").data, ("c").data].map mkMathCell))).length = 3 :=
  ⟨(c4_barrier_and_error_isolation
      (fun tpl => if tpl = renderTemplate (("bad").data) true
        then Except.error (("boom").data) else Except.ok (("svg").data))
      (fun _ => [Hast.element ("svg") [] ("") []])
      [("a").data, ("bad").data, ("c").data] 1 (("boom").data) (fun _ => ("svg").data)
      (by decide) (by rfl)
      (fun j hj hne => by
        have hj3 : j < 3 := by simpa using hj
        interval_cases j
        · exact ⟨rfl, ("svg"), [], (""), [], rfl⟩
        · exact absurd rfl hne
        · exact ⟨rfl, ("svg"), [], (""), [], rfl⟩)).2.1,
    (c4_barrier_and_error_isolation
      (fun tpl => if tpl = renderTemplate (("bad").data) true
        then Except.error (("boom").data) else Except.ok (("svg").data))
      (fun _ => [Hast.element ("svg") [] ("") []])
      [("a").data, ("bad").data, ("c").data] 1 (("boom").data) (fun _ => ("svg").data)
      (by decide) (by rfl)
      (fun j hj hne => by
        have hj3 : j < 3 := by simpa using hj
        interval_cases j
        · exact ⟨rfl, ("svg"), [], (""), [], rfl⟩
        · exact absurd rfl hne
        · exact ⟨rfl, ("svg"), [], (""), [], rfl⟩)).2.2.2.1⟩
